import Mathlib

/- A verification development for the atlas codebase foundation: a shallow
embedding of the tagging and search edge functions
(supabase/functions/auto-tag-file/index.ts, supabase/functions/search/index.ts
and the documents-upload function), together with proofs about them.
JS strings are modelled as Lean strings (lists of characters); the ASCII
fragment of toLowerCase, of the regex classes \w, \s, \d, and of trim is
modelled explicitly, matching the declared scope of ASCII/Latin word
splitting. -/

namespace Atlas

/-- ASCII whitespace, the fragment of the JS regex class \s used here. -/
def isWsChar (c : Char) : Bool :=
  c.toNat == 32 || (9 ≤ c.toNat && c.toNat ≤ 13)

/-- JS regex class \w, that is [A-Za-z0-9_]. -/
def isWordChar (c : Char) : Bool :=
  (48 ≤ c.toNat && c.toNat ≤ 57) || (65 ≤ c.toNat && c.toNat ≤ 90) ||
  (97 ≤ c.toNat && c.toNat ≤ 122) || c.toNat == 95

/-- JS regex class \d. -/
def isDigitChar (c : Char) : Bool := 48 ≤ c.toNat && c.toNat ≤ 57

/-- ASCII upper-case letters A..Z. -/
def isUpperChar (c : Char) : Bool := 65 ≤ c.toNat && c.toNat ≤ 90

/-- String.prototype.toLowerCase on one character (ASCII fragment). -/
def jsCharLower (c : Char) : Char :=
  if h : 65 ≤ c.toNat ∧ c.toNat ≤ 90 then
    ⟨c.val + 32, by
      have h90 : c.val.toNat ≤ 90 := h.2
      have hadd : (c.val + 32).toNat = c.val.toNat + 32 := by
        rw [UInt32.toNat_add]
        have h32 : (32 : UInt32).toNat = 32 := rfl
        have hsize : UInt32.size = 4294967296 := rfl
        rw [h32, hsize]
        exact Nat.mod_eq_of_lt (by omega)
      refine Or.inl ?_
      show (c.val + 32).toNat < 55296
      omega⟩
  else c

/-- text.toLowerCase() -/
def jsToLower (s : String) : String := ⟨s.data.map jsCharLower⟩

/-- One step of .replace(/[^\w\s]/g, ' '): a character that is neither a
word character nor whitespace becomes a space. -/
def sanitizeChar (c : Char) : Char := if isWordChar c || isWsChar c then c else ' '

/-- .replace(/[^\w\s]/g, ' ') -/
def jsSanitize (s : String) : String := ⟨s.data.map sanitizeChar⟩

/-- .replace(/\s+/g, ' '): every maximal whitespace run becomes one space. -/
def collapseWs : List Char → List Char
  | [] => []
  | [c] => if isWsChar c then [' '] else [c]
  | c :: d :: rest =>
    if isWsChar c && isWsChar d then collapseWs (d :: rest)
    else (if isWsChar c then ' ' else c) :: collapseWs (d :: rest)

/-- String.prototype.trim (ASCII whitespace fragment). -/
def jsTrim (l : List Char) : List Char :=
  ((l.dropWhile isWsChar).reverse.dropWhile isWsChar).reverse

/-- The normalisation chain of extractKeywordsAndTags:
text.toLowerCase().replace(/[^\w\s]/g, ' ').replace(/\s+/g, ' ').trim() -/
def cleanText (text : String) : List Char :=
  jsTrim (collapseWs (jsSanitize (jsToLower text)).data)

/-- The stop-word set of extractKeywordsAndTags. -/
def stopWords : List String :=
  ["the", "a", "an", "and", "or", "but", "in", "on", "at", "to", "for",
   "of", "with", "by", "is", "are", "was", "were", "be", "been", "have",
   "has", "had", "do", "does", "did", "will", "would", "could", "should",
   "may", "might", "can", "shall", "must", "this", "that", "these",
   "those", "i", "you", "he", "she", "it", "we", "they", "me", "him",
   "her", "us", "them", "my", "your", "his", "her", "its", "our", "their"]

/-- The regex test /^\d+$/: a non-empty all-digit string. -/
def isPureNumber (w : String) : Bool := !w.data.isEmpty && w.data.all isDigitChar

/-- String.prototype.split on a single separator character: every
occurrence separates, and empty pieces are kept (the empty string yields
one empty piece, as in JS). -/
def splitOnChar (sep : Char) : List Char → List (List Char)
  | [] => [[]]
  | c :: rest =>
    if c == sep then [] :: splitOnChar sep rest
    else
      match splitOnChar sep rest with
      | [] => [[c]]
      | piece :: more => (c :: piece) :: more

/-- cleanText.split(' ') followed by the two word filters of
extractKeywordsAndTags (length > 2, not a stop word, not a pure number). -/
def wordsOf (text : String) : List String :=
  (((splitOnChar ' ' (cleanText text)).map String.mk).filter
    (fun word => word.length > 2 && !stopWords.contains word)).filter
    (fun word => !isPureNumber word)

/-- One Map.set step of the frequency count: an existing key is updated in
place (insertion order kept), a new key is appended at the end. -/
def bump : List (String × Nat) → String → List (String × Nat)
  | [], w => [(w, 1)]
  | (k, n) :: rest, w =>
    if k = w then (k, n + 1) :: rest else (k, n) :: bump rest w

/-- The wordFreq map built over the filtered words. -/
def wordFreq (text : String) : List (String × Nat) := (wordsOf text).foldl bump []

/-- wordFreq.has(w) -/
def freqHas (m : List (String × Nat)) (w : String) : Bool :=
  (m.find? (fun kv => kv.1 == w)).isSome

/-- wordFreq.get(w), defaulting to 0 when absent. -/
def freqGet (m : List (String × Nat)) (w : String) : Nat :=
  match m.find? (fun kv => kv.1 == w) with
  | some kv => kv.2
  | none => 0

/-- The fixed domainKeywords configuration table, in declaration order. -/
def domainKeywords : List (String × List String) :=
  [("technology",
    ["software", "computer", "programming", "code", "algorithm", "database",
     "api", "javascript", "python", "react", "nodejs", "html", "css", "sql",
     "github", "git", "framework", "library", "development", "developer",
     "tech", "digital", "cyber", "network", "server", "cloud", "aws",
     "google", "microsoft", "apple", "website", "application", "mobile",
     "web", "system", "platform", "service", "infrastructure", "security",
     "encryption", "protocol"]),
   ("business",
    ["company", "enterprise", "corporation", "business", "finance",
     "financial", "revenue", "profit", "loss", "investment", "market",
     "marketing", "sales", "customer", "client", "strategy", "management",
     "leadership", "team", "employee", "budget", "cost", "expense",
     "income", "startup", "entrepreneur", "commerce", "trade", "industry",
     "organization", "partnership", "acquisition", "merger"]),
   ("science",
    ["research", "study", "experiment", "hypothesis", "theory", "data",
     "analysis", "statistics", "biology", "chemistry", "physics",
     "mathematics", "medicine", "health", "medical", "clinical",
     "laboratory", "scientific", "academic", "university", "college",
     "education", "learning", "knowledge", "discovery", "innovation",
     "methodology", "empirical", "quantitative", "qualitative"]),
   ("legal",
    ["law", "legal", "court", "judge", "lawyer", "attorney", "contract",
     "agreement", "terms", "conditions", "policy", "regulation",
     "compliance", "litigation", "case", "plaintiff", "defendant",
     "evidence", "testimony", "verdict", "settlement", "rights",
     "liability", "jurisdiction", "statute", "legislation",
     "constitutional", "judicial", "arbitration"]),
   ("finance",
    ["money", "dollar", "currency", "bank", "banking", "account", "loan",
     "credit", "debt", "payment", "transaction", "invoice", "receipt",
     "tax", "taxes", "financial", "finance", "investment", "stock", "bond",
     "portfolio", "asset", "liability", "equity", "cash", "savings",
     "insurance", "mortgage", "interest", "dividend", "capital",
     "funding"]),
   ("health",
    ["health", "medical", "doctor", "hospital", "clinic", "patient",
     "treatment", "therapy", "medicine", "drug", "prescription",
     "diagnosis", "symptom", "disease", "illness", "injury", "pain",
     "wellness", "fitness", "exercise", "nutrition", "diet", "mental",
     "physical", "healthcare", "pharmaceutical", "preventive"]),
   ("education",
    ["school", "university", "college", "student", "teacher", "professor",
     "education", "learning", "study", "course", "class", "lesson",
     "homework", "assignment", "exam", "test", "grade", "degree",
     "diploma", "certificate", "academic", "curriculum", "syllabus",
     "pedagogy", "instruction", "training"]),
   ("personal",
    ["family", "friend", "relationship", "personal", "private", "diary",
     "journal", "note", "reminder", "memory", "photo", "picture",
     "vacation", "travel", "hobby", "interest", "goal", "plan", "dream",
     "wish", "hope", "feeling", "emotion", "thoughts", "lifestyle",
     "social", "community"]),
   ("communication",
    ["email", "message", "letter", "memo", "report", "document",
     "presentation", "meeting", "conference", "discussion", "conversation",
     "announcement", "notification", "correspondence", "communication",
     "newsletter", "publication", "article", "blog", "social", "media"]),
   ("project",
    ["project", "task", "milestone", "deadline", "schedule", "timeline",
     "plan", "planning", "goal", "objective", "deliverable", "requirement",
     "specification", "proposal", "scope", "phase", "progress", "status",
     "update", "review", "approval", "completion"])]

/-- The per-domain score loop: occurrence count times a weight of 2 for
keywords longer than 4 characters, else 1. -/
def domainScore (freq : List (String × Nat)) (keywords : List String) : Nat :=
  keywords.foldl (fun score keyword =>
    if freqHas freq keyword then
      score + freqGet freq keyword * (if keyword.length > 4 then 2 else 1)
    else score) 0

/-- The tagScores map: positive-score domains, in declaration order. -/
def tagScores (freq : List (String × Nat)) : List (String × Nat) :=
  domainKeywords.foldl (fun acc d =>
    let score := domainScore freq d.2
    if score > 0 then acc ++ [(d.1, score)] else acc) []

/-- Stable insertion step: x is placed after every y with le y x. -/
def insertStable {α : Type} (le : α → α → Bool) (x : α) : List α → List α
  | [] => [x]
  | y :: ys => if le y x then y :: insertStable le x ys else x :: y :: ys

/-- A stable sort that keeps y before x whenever le y x; this models the
stable Array.prototype.sort with the comparator that le encodes. -/
def sortStable {α : Type} (le : α → α → Bool) (l : List α) : List α :=
  l.foldl (fun acc x => insertStable le x acc) []

/-- The comparator (a, b) => b[1] - a[1]: descending by count; an earlier
entry y may stay before x exactly when its count is at least that of x. -/
def descKeep (y x : String × Nat) : Bool := x.2 ≤ y.2

/-- sortedTags: positive-score domains sorted by score descending
(declaration order on ties), the first 5 taken. -/
def sortedTags (freq : List (String × Nat)) : List String :=
  ((sortStable descKeep (tagScores freq)).take 5).map (fun p => p.1)

/-- meaningfulWords: frequency-table entries with count at least 2 and
length 4..15, sorted by count descending, the first 3 taken. -/
def meaningfulWords (freq : List (String × Nat)) : List String :=
  ((sortStable descKeep (freq.filter (fun kv =>
    kv.2 ≥ 2 && kv.1.length ≥ 4 && kv.1.length ≤ 15))).take 3).map (fun p => p.1)

/-- The JS Set-based de-duplication [...new Set(l)]: first occurrences are
kept, in order. -/
def dedupFirstAux {α : Type} [DecidableEq α] (seen : List α) : List α → List α
  | [] => []
  | x :: xs =>
    if seen.contains x then dedupFirstAux seen xs
    else x :: dedupFirstAux (x :: seen) xs

/-- [...new Set(l)] -/
def dedupFirst {α : Type} [DecidableEq α] (l : List α) : List α :=
  dedupFirstAux [] l

/-- extractKeywordsAndTags from auto-tag-file/index.ts: the guard for
empty or whitespace-only text, domain tags, supplemental frequent words,
de-duplication and the cap of 6. -/
def extractKeywordsAndTags (text : String) : List String :=
  if (jsTrim text.data).length == 0 then []
  else
    let freq := wordFreq text
    (dedupFirst (sortedTags freq ++ meaningfulWords freq)).take 6

/-- String.prototype.includes as substring containment. -/
def jsIncludes : List Char → List Char → Bool
  | [], needle => needle.isEmpty
  | c :: t, needle => needle.isPrefixOf (c :: t) || jsIncludes t needle

/-- A search candidate row of search/index.ts: the filename, the optional
joined file_content.indexed_text and the upload timestamp (the Date
getTime value as an integer). Transport-only columns (file_type, size,
storage_path, user_id) are omitted. -/
structure Candidate where
  id : Nat
  filename : String
  indexedText : Option String
  uploadDate : Int
deriving Repr, DecidableEq

/-- searchTerms = searchQuery.trim().toLowerCase() -/
def searchTermsOf (q : String) : List Char := (jsToLower ⟨jsTrim q.data⟩).data

/-- filename.toLowerCase().includes(searchTerms) -/
def inName (terms : List Char) (c : Candidate) : Bool :=
  jsIncludes (jsToLower c.filename).data terms

/-- file_content?.indexed_text?.toLowerCase().includes(searchTerms); the
optional chain yields a falsy value when there is no content row. -/
def inText (terms : List Char) (c : Candidate) : Bool :=
  match c.indexedText with
  | some t => jsIncludes (jsToLower t).data terms
  | none => false

/-- relevance_score of formattedResults in search/index.ts. -/
def relevanceScore (terms : List Char) (c : Candidate) : Nat :=
  if inName terms c then (if inText terms c then 3 else 2) else 1

/-- A formatted result: the candidate with its computed relevance score. -/
structure Scored where
  cand : Candidate
  score : Nat
deriving Repr, DecidableEq

/-- formattedResults: every candidate receives its relevance score. -/
def formatResults (q : String) (cands : List Candidate) : List Scored :=
  cands.map (fun c => ⟨c, relevanceScore (searchTermsOf q) c⟩)

/-- The comparator of formattedResults.sort: score descending first, then
upload date descending; an earlier y stays before x exactly when the
comparator value on (y, x) is nonpositive. -/
def rankKeep (y x : Scored) : Bool :=
  if y.score == x.score then decide (x.cand.uploadDate ≤ y.cand.uploadDate)
  else decide (x.score < y.score)

/-- The ranked search results for a query over a candidate list. -/
def rankResults (q : String) (cands : List Candidate) : List Scored :=
  sortStable rankKeep (formatResults q cands)

/-- The tag storage state: the tags table (id, tag_name) and the
file_tags table (file_id, tag_id), both in insertion order, plus the next
generated id. -/
structure TagStore where
  tags : List (Nat × String)
  fileTags : List (Nat × Nat)
  nextId : Nat
deriving Repr, DecidableEq

/-- The lookup select(id).eq(tag_name, lname).single() of
ensureTagExists: exactly one matching row yields its id; zero or several
rows yield an error, which the caller treats as not found. -/
def findTagSingle (tags : List (Nat × String)) (lname : String) : Option Nat :=
  match tags.filter (fun t => t.2 == lname) with
  | [t] => some t.1
  | _ => none

/-- ensureTagExists: find the tag under the lower-cased name, else insert
it. The insert round-trip can fail; canCreate says which names the store
accepts, so that the per-tag failure caught by the caller is
representable. A failed insert raises, leaving the state unchanged. -/
def ensureTagExists (canCreate : String → Bool) (tags : List (Nat × String))
    (nextId : Nat) (tagName : String) : Option Nat × List (Nat × String) × Nat :=
  let lname := jsToLower tagName
  match findTagSingle tags lname with
  | some id => (some id, tags, nextId)
  | none =>
    if canCreate lname then (some nextId, tags ++ [(nextId, lname)], nextId + 1)
    else (none, tags, nextId)

/-- The sequential per-tag loop of the serve handler: a failing
ensureTagExists is caught and that name skipped, the other ids are
collected in order. -/
def resolveTags (canCreate : String → Bool) (tags : List (Nat × String))
    (nextId : Nat) : List String → List Nat × List (Nat × String) × Nat
  | [] => ([], tags, nextId)
  | n :: ns =>
    match ensureTagExists canCreate tags nextId n with
    | (some id, tags1, nid1) =>
      let r := resolveTags canCreate tags1 nid1 ns
      (id :: r.1, r.2)
    | (none, tags1, nid1) => resolveTags canCreate tags1 nid1 ns

/-- linkFileTags: delete every existing row of the file, then insert one
row per tag id (the insert is skipped for an empty id list). -/
def linkFileTags (fileTags : List (Nat × Nat)) (fileId : Nat)
    (tagIds : List Nat) : List (Nat × Nat) :=
  let cleared := fileTags.filter (fun ft => ft.1 != fileId)
  if tagIds.length > 0 then cleared ++ tagIds.map (fun t => (fileId, t))
  else cleared

/-- The auto-tag-file responses that matter here: the validation error,
the early no-tags success, and the tagged success carrying the reported
tag list and tag_count. -/
inductive TagResponse where
  | error (status : Nat)
  | noTags
  | tagged (tags : List String) (tagCount : Nat)
deriving Repr, DecidableEq

/-- The POST handler of auto-tag-file: the falsy-field validation (a
missing or zero file_id and a missing or empty file_text are falsy),
extraction, the per-tag resolution loop, and the link replacement, which
runs only for a non-empty resolved id list. -/
def autoTag (canCreate : String → Bool) (s : TagStore) (fileId : Nat)
    (fileText : String) : TagStore × TagResponse :=
  if fileId == 0 || fileText == "" then (s, .error 400)
  else
    let identifiedTags := extractKeywordsAndTags fileText
    if identifiedTags.isEmpty then (s, .noTags)
    else
      let r := resolveTags canCreate s.tags s.nextId identifiedTags
      let ft := if r.1.length > 0 then linkFileTags s.fileTags fileId r.1
                else s.fileTags
      (⟨r.2.1, ft, r.2.2⟩, .tagged identifiedTags r.1.length)

/-- The reconcile contract of the spec over this store: resolve the tag
names, then replace the link set of the document; the resolved count is
reported. -/
def reconcile (canCreate : String → Bool) (s : TagStore) (fileId : Nat)
    (names : List String) : TagStore × Nat :=
  let r := resolveTags canCreate s.tags s.nextId names
  let ft := if r.1.length > 0 then linkFileTags s.fileTags fileId r.1 else s.fileTags
  (⟨r.2.1, ft, r.2.2⟩, r.1.length)

/-- The link set of one document: the tag ids of its rows, in order. -/
def linksFor (s : TagStore) (fileId : Nat) : List Nat :=
  (s.fileTags.filter (fun ft => ft.1 == fileId)).map (fun ft => ft.2)

/-- From the documents-upload function: the indexed text is the extracted
text when that is non-empty and has a non-empty trim, else the file name
without its extension; the resulting ContentRecord row is always
inserted. -/
def textForIndex (extractedText filenameNoExt : String) : String :=
  if extractedText != "" && (jsTrim extractedText.data).length > 0 then extractedText
  else filenameNoExt

/-- Spec reference for claim C1: the per-domain score as a sum over the
keyword list of occurrence count times weight, the weight being 2 for
keywords longer than 4 characters, else 1; a keyword absent from the
frequency table has count 0 and adds nothing. -/
def specDomainScore (freq : List (String × Nat)) (keywords : List String) : Nat :=
  (keywords.map (fun k => freqGet freq k * (if k.length > 4 then 2 else 1))).sum

/-- Spec reference for claim C1: every domain of the table scored, those
with positive score kept in declaration order, stably sorted by score
descending, and the first 5 taken as domain tags. -/
def specDomainTags (freq : List (String × Nat)) : List String :=
  ((sortStable descKeep ((domainKeywords.map
    (fun d => (d.1, specDomainScore freq d.2))).filter
      (fun p => p.2 > 0))).take 5).map (fun p => p.1)

/-- Claim C5 as stated: the supplemental tags are the top 3 frequent
tokens with count at least 2 and length 4..15 excluding the chosen domain
tags; the final set is domain tags then supplemental tags, de-duplicated
and capped at 6. -/
def claimC5Tags (text : String) : List String :=
  if (jsTrim text.data).length == 0 then []
  else
    let freq := wordFreq text
    let dt := specDomainTags freq
    let supp := ((sortStable descKeep (freq.filter (fun kv =>
      kv.2 ≥ 2 && kv.1.length ≥ 4 && kv.1.length ≤ 15 &&
        !dt.contains kv.1))).take 3).map (fun p => p.1)
    (dedupFirst (dt ++ supp)).take 6

/-- The amended claim C5: as claimC5Tags, but the top 3 supplemental
tokens are chosen without excluding the domain tags; duplicates fall out
only in the final de-duplication. -/
def amendedC5Tags (text : String) : List String :=
  if (jsTrim text.data).length == 0 then []
  else
    let freq := wordFreq text
    let supp := ((sortStable descKeep (freq.filter (fun kv =>
      kv.2 ≥ 2 && kv.1.length ≥ 4 && kv.1.length ≤ 15))).take 3).map (fun p => p.1)
    (dedupFirst (specDomainTags freq ++ supp)).take 6

/-- Well-formedness of the tags table: every stored name is already
lower-case and no name occurs twice. -/
def TagsWF (tags : List (Nat × String)) : Prop :=
  (∀ e ∈ tags, jsToLower e.2 = e.2) ∧ (tags.map (fun e => e.2)).Nodup

/-- Case-insensitive uniqueness of the stored tag names: the lower-cased
names are pairwise distinct, so no two records differ only in case. -/
def CaseInsensitivelyUnique (tags : List (Nat × String)) : Prop :=
  (tags.map (fun e => e.2)).Pairwise (fun a b => jsToLower a ≠ jsToLower b)

/-- A sequence of reconcile operations, each a document id with its tag
name list, run left to right over the store. -/
def runAll (canCreate : String → Bool) (s : TagStore)
    (ops : List (Nat × List String)) : TagStore :=
  ops.foldl (fun st op => (reconcile canCreate st op.1 op.2).1) s

theorem dedupFirstAux_cons {α : Type} [DecidableEq α] (seen : List α) (x : α)
    (xs : List α) :
    dedupFirstAux seen (x :: xs) =
      if seen.contains x then dedupFirstAux seen xs
      else x :: dedupFirstAux (x :: seen) xs := rfl

theorem insertStable_cons {α : Type} (le : α → α → Bool) (x y : α) (ys : List α) :
    insertStable le x (y :: ys) =
      if le y x then y :: insertStable le x ys else x :: y :: ys := rfl

theorem insertStable_perm {α : Type} (le : α → α → Bool) (x : α) (l : List α) :
    (insertStable le x l).Perm (x :: l) := by
  induction l with
  | nil => exact List.Perm.refl _
  | cons y ys ih =>
    rw [insertStable_cons]
    by_cases h : le y x = true
    · rw [if_pos h]
      exact (ih.cons y).trans (List.Perm.swap x y ys)
    · rw [if_neg h]

theorem mem_insertStable {α : Type} {le : α → α → Bool} {x z : α} {l : List α}
    (hz : z ∈ insertStable le x l) : z = x ∨ z ∈ l := by
  have := (insertStable_perm le x l).mem_iff.mp hz
  simpa using this

theorem pairwise_insertStable {α : Type} {le : α → α → Bool}
    (htot : ∀ a b, le a b = false → le b a = true)
    (htrans : ∀ a b c, le a b = true → le b c = true → le a c = true)
    (x : α) {l : List α} (hl : l.Pairwise (fun a b => le a b = true)) :
    (insertStable le x l).Pairwise (fun a b => le a b = true) := by
  induction l with
  | nil => exact List.pairwise_singleton _ x
  | cons y ys ih =>
    rcases List.pairwise_cons.mp hl with ⟨hy, hys⟩
    rw [insertStable_cons]
    by_cases h : le y x = true
    · rw [if_pos h]
      refine List.pairwise_cons.mpr ⟨?_, ih hys⟩
      intro z hz
      rcases mem_insertStable hz with rfl | hz
      · exact h
      · exact hy z hz
    · rw [if_neg h]
      have hf : le y x = false := by simpa using h
      refine List.pairwise_cons.mpr ⟨?_, hl⟩
      intro z hz
      rcases List.mem_cons.mp hz with rfl | hz
      · exact htot _ _ hf
      · exact htrans x y z (htot y x hf) (hy z hz)

theorem sortStable_perm_aux {α : Type} (le : α → α → Bool) (l : List α) :
    ∀ acc : List α,
      (l.foldl (fun acc x => insertStable le x acc) acc).Perm (l ++ acc) := by
  induction l with
  | nil => intro acc; simp
  | cons x l ih =>
    intro acc
    show (l.foldl (fun acc x => insertStable le x acc)
      (insertStable le x acc)).Perm ((x :: l) ++ acc)
    refine (ih (insertStable le x acc)).trans ?_
    refine (List.Perm.append_left l (insertStable_perm le x acc)).trans ?_
    exact List.perm_middle

theorem sortStable_perm {α : Type} (le : α → α → Bool) (l : List α) :
    (sortStable le l).Perm l := by
  have := sortStable_perm_aux le l []
  simpa [sortStable] using this

theorem sortStable_pairwise {α : Type} {le : α → α → Bool}
    (htot : ∀ a b, le a b = false → le b a = true)
    (htrans : ∀ a b c, le a b = true → le b c = true → le a c = true)
    (l : List α) :
    (sortStable le l).Pairwise (fun a b => le a b = true) := by
  suffices h : ∀ (l acc : List α), acc.Pairwise (fun a b => le a b = true) →
      (l.foldl (fun acc x => insertStable le x acc) acc).Pairwise
        (fun a b => le a b = true) by
    exact h l [] List.Pairwise.nil
  intro l
  induction l with
  | nil => intro acc h; exact h
  | cons x l ih =>
    intro acc hacc
    exact ih _ (pairwise_insertStable htot htrans x hacc)

theorem filter_insertStable_neg {α : Type} (le : α → α → Bool) (p : α → Bool)
    {x : α} (hx : p x = false) (l : List α) :
    (insertStable le x l).filter p = l.filter p := by
  induction l with
  | nil => simp [insertStable, hx]
  | cons y ys ih =>
    rw [insertStable_cons]
    by_cases h : le y x = true
    · rw [if_pos h]
      simp only [List.filter_cons, ih]
    · rw [if_neg h]
      simp [List.filter_cons, hx]

theorem filter_insertStable_pos {α : Type} {le : α → α → Bool} {p : α → Bool}
    {x : α} (hx : p x = true)
    (h1 : ∀ y, p y = true → le y x = true)
    (h2 : ∀ y z, p z = true → le y z = true → le y x = true)
    {l : List α} (hl : l.Pairwise (fun a b => le a b = true)) :
    (insertStable le x l).filter p = l.filter p ++ [x] := by
  induction l with
  | nil => simp [insertStable, hx]
  | cons y ys ih =>
    rcases List.pairwise_cons.mp hl with ⟨hy, hys⟩
    rw [insertStable_cons]
    by_cases h : le y x = true
    · rw [if_pos h]
      simp only [List.filter_cons, ih hys]
      by_cases hpy : p y = true <;> simp [hpy]
    · rw [if_neg h]
      have hnil : (y :: ys).filter p = [] := by
        refine List.filter_eq_nil_iff.mpr ?_
        intro z hz
        rcases List.mem_cons.mp hz with rfl | hz
        · intro hpz
          exact absurd (h1 z hpz) h
        · intro hpz
          exact absurd (h2 y z hpz (hy z hz)) h
      rw [List.filter_cons_of_pos hx, hnil]
      rfl

theorem sortStable_filter {α : Type} {le : α → α → Bool} {p : α → Bool}
    (htot : ∀ a b, le a b = false → le b a = true)
    (htrans : ∀ a b c, le a b = true → le b c = true → le a c = true)
    (h1 : ∀ x y, p x = true → p y = true → le y x = true)
    (h2 : ∀ x y z, p x = true → p z = true → le y z = true → le y x = true)
    (l : List α) :
    (sortStable le l).filter p = l.filter p := by
  suffices h : ∀ (l acc : List α), acc.Pairwise (fun a b => le a b = true) →
      (l.foldl (fun acc x => insertStable le x acc) acc).filter p =
        acc.filter p ++ l.filter p by
    simpa using h l [] List.Pairwise.nil
  intro l
  induction l with
  | nil => intro acc _; simp
  | cons x l ih =>
    intro acc hacc
    show (l.foldl (fun acc x => insertStable le x acc)
      (insertStable le x acc)).filter p = acc.filter p ++ (x :: l).filter p
    rw [ih _ (pairwise_insertStable htot htrans x hacc)]
    by_cases hpx : p x = true
    · rw [filter_insertStable_pos hpx (fun y => h1 x y hpx)
        (fun y z => h2 x y z hpx) hacc]
      simp [List.filter_cons, hpx]
    · have hf : p x = false := by simpa using hpx
      rw [filter_insertStable_neg le p hf]
      simp [List.filter_cons, hf]

theorem dedupFirstAux_subset {α : Type} [DecidableEq α] {x : α} :
    ∀ {l seen : List α}, x ∈ dedupFirstAux seen l → x ∈ l := by
  intro l
  induction l with
  | nil => intro seen h; simp [dedupFirstAux] at h
  | cons y ys ih =>
    intro seen h
    rw [dedupFirstAux_cons] at h
    by_cases hc : seen.contains y = true
    · rw [if_pos hc] at h
      exact List.mem_cons_of_mem _ (ih h)
    · rw [if_neg hc] at h
      rcases List.mem_cons.mp h with rfl | h
      · exact List.mem_cons_self _ _
      · exact List.mem_cons_of_mem _ (ih h)

theorem dedupFirst_subset {α : Type} [DecidableEq α] {x : α} {l : List α}
    (h : x ∈ dedupFirst l) : x ∈ l :=
  dedupFirstAux_subset h

theorem mem_dedupFirstAux_not_seen {α : Type} [DecidableEq α] {x : α} :
    ∀ {l seen : List α}, x ∈ dedupFirstAux seen l → x ∉ seen := by
  intro l
  induction l with
  | nil => intro seen h; simp [dedupFirstAux] at h
  | cons y ys ih =>
    intro seen h
    rw [dedupFirstAux_cons] at h
    by_cases hc : seen.contains y = true
    · rw [if_pos hc] at h
      exact ih h
    · rw [if_neg hc] at h
      rcases List.mem_cons.mp h with rfl | h
      · simpa using hc
      · intro hx
        exact ih h (List.mem_cons_of_mem _ hx)

theorem dedupFirstAux_append_nodup {α : Type} [DecidableEq α] :
    ∀ (l1 : List α) (seen l2 : List α), l1.Nodup → (∀ x ∈ l1, x ∉ seen) →
      ∃ rest, dedupFirstAux seen (l1 ++ l2) = l1 ++ rest ∧
        ∀ x ∈ rest, x ∉ l1 ∧ x ∉ seen := by
  intro l1
  induction l1 with
  | nil =>
    intro seen l2 _ _
    refine ⟨dedupFirstAux seen l2, by simp, ?_⟩
    intro x hx
    exact ⟨by simp, mem_dedupFirstAux_not_seen hx⟩
  | cons a l1 ih =>
    intro seen l2 hnd hns
    have ha : ¬ seen.contains a = true := by
      simpa using hns a (List.mem_cons_self _ _)
    have hstep : dedupFirstAux seen ((a :: l1) ++ l2) =
        a :: dedupFirstAux (a :: seen) (l1 ++ l2) := by
      rw [List.cons_append, dedupFirstAux_cons, if_neg ha]
    have hside : ∀ x ∈ l1, x ∉ a :: seen := by
      intro x hx hmem
      rcases List.mem_cons.mp hmem with rfl | hmem
      · exact (List.nodup_cons.mp hnd).1 hx
      · exact hns x (List.mem_cons_of_mem _ hx) hmem
    rcases ih (a :: seen) l2 (List.nodup_cons.mp hnd).2 hside with ⟨rest, hr, hrest⟩
    refine ⟨rest, by rw [hstep, hr]; rfl, ?_⟩
    intro x hx
    rcases hrest x hx with ⟨h1, h2⟩
    refine ⟨?_, fun hx2 => h2 (List.mem_cons_of_mem _ hx2)⟩
    intro hmem
    rcases List.mem_cons.mp hmem with rfl | hmem
    · exact h2 (List.mem_cons_self _ _)
    · exact h1 hmem

theorem mem_bump_keys {x w : String} :
    ∀ {m : List (String × Nat)}, x ∈ (bump m w).map (fun kv => kv.1) →
      x ∈ m.map (fun kv => kv.1) ∨ x = w := by
  intro m
  induction m with
  | nil => intro h; simp [bump] at h; exact Or.inr h
  | cons kv rest ih =>
    obtain ⟨k, n⟩ := kv
    intro h
    by_cases hk : k = w
    · refine Or.inl ?_
      simp only [bump, if_pos hk] at h
      simpa using h
    · simp only [bump, if_neg hk] at h
      simp only [List.map_cons, List.mem_cons] at h ⊢
      rcases h with rfl | h
      · exact Or.inl (Or.inl rfl)
      · rcases ih h with h | h
        · exact Or.inl (Or.inr h)
        · exact Or.inr h

theorem wordFreq_keys_aux {x : String} :
    ∀ (ws : List String) (m : List (String × Nat)),
      x ∈ ((ws.foldl bump m).map (fun kv => kv.1)) →
        x ∈ m.map (fun kv => kv.1) ∨ x ∈ ws := by
  intro ws
  induction ws with
  | nil => intro m h; exact Or.inl h
  | cons w ws ih =>
    intro m h
    rcases ih (bump m w) h with h | h
    · rcases mem_bump_keys h with h | rfl
      · exact Or.inl h
      · exact Or.inr (List.mem_cons_self _ _)
    · exact Or.inr (List.mem_cons_of_mem _ h)

theorem wordFreq_keys {text : String} {x : String}
    (h : x ∈ (wordFreq text).map (fun kv => kv.1)) : x ∈ wordsOf text := by
  rcases wordFreq_keys_aux (wordsOf text) [] h with h | h
  · simp at h
  · exact h

theorem freqGet_of_not_has {m : List (String × Nat)} {w : String}
    (h : freqHas m w = false) : freqGet m w = 0 := by
  unfold freqHas at h
  unfold freqGet
  cases hf : m.find? (fun kv => kv.1 == w) with
  | none => rfl
  | some kv => rw [hf] at h; simp at h

theorem domainScore_eq_spec (freq : List (String × Nat)) (keywords : List String) :
    domainScore freq keywords = specDomainScore freq keywords := by
  unfold domainScore specDomainScore
  suffices h : ∀ (kws : List String) (acc : Nat),
      kws.foldl (fun score keyword =>
        if freqHas freq keyword then
          score + freqGet freq keyword * (if keyword.length > 4 then 2 else 1)
        else score) acc =
      acc + (kws.map (fun k =>
        freqGet freq k * (if k.length > 4 then 2 else 1))).sum by
    simpa using h keywords 0
  intro kws
  induction kws with
  | nil => intro acc; simp
  | cons k kws ih =>
    intro acc
    simp only [List.foldl_cons, List.map_cons, List.sum_cons]
    by_cases hk : freqHas freq k = true
    · rw [if_pos hk, ih]; omega
    · have h0 : freqGet freq k = 0 := freqGet_of_not_has (by simpa using hk)
      rw [if_neg hk, ih, h0]; omega

theorem tagScores_eq (freq : List (String × Nat)) :
    tagScores freq = (domainKeywords.map
      (fun d => (d.1, specDomainScore freq d.2))).filter (fun p => p.2 > 0) := by
  unfold tagScores
  simp only [domainScore_eq_spec]
  suffices h : ∀ (L : List (String × List String)) (acc : List (String × Nat)),
      L.foldl (fun acc d =>
        if specDomainScore freq d.2 > 0 then acc ++ [(d.1, specDomainScore freq d.2)]
        else acc) acc =
      acc ++ (L.map (fun d => (d.1, specDomainScore freq d.2))).filter
        (fun p => p.2 > 0) by
    simpa using h domainKeywords []
  intro L
  induction L with
  | nil => intro acc; simp
  | cons d L ih =>
    intro acc
    simp only [List.foldl_cons, List.map_cons, List.filter_cons]
    by_cases hpos : specDomainScore freq d.2 > 0
    · rw [if_pos hpos, ih]
      simp [hpos]
    · rw [if_neg hpos, ih]
      simp [hpos]

theorem sortedTags_eq_spec (freq : List (String × Nat)) :
    sortedTags freq = specDomainTags freq := by
  unfold sortedTags specDomainTags
  rw [tagScores_eq]

theorem toNat_jsCharLower (c : Char) :
    (jsCharLower c).toNat =
      if 65 ≤ c.toNat ∧ c.toNat ≤ 90 then c.toNat + 32 else c.toNat := by
  by_cases h : 65 ≤ c.toNat ∧ c.toNat ≤ 90
  · rw [if_pos h]
    unfold jsCharLower
    rw [dif_pos h]
    show (c.val + 32).toNat = c.val.toNat + 32
    have h90 : c.val.toNat ≤ 90 := h.2
    rw [UInt32.toNat_add]
    have h32 : (32 : UInt32).toNat = 32 := rfl
    have hsize : UInt32.size = 4294967296 := rfl
    rw [h32, hsize]
    exact Nat.mod_eq_of_lt (by omega)
  · rw [if_neg h]
    unfold jsCharLower
    rw [dif_neg h]

theorem jsCharLower_eq_self {c : Char} (h : ¬(65 ≤ c.toNat ∧ c.toNat ≤ 90)) :
    jsCharLower c = c := by
  unfold jsCharLower
  rw [dif_neg h]

theorem jsCharLower_idem (c : Char) :
    jsCharLower (jsCharLower c) = jsCharLower c := by
  by_cases h : 65 ≤ c.toNat ∧ c.toNat ≤ 90
  · apply jsCharLower_eq_self
    rw [toNat_jsCharLower, if_pos h]
    omega
  · rw [jsCharLower_eq_self h]
    exact jsCharLower_eq_self h

theorem map_eq_self_of_mem {α : Type} {f : α → α} :
    ∀ {l : List α}, (∀ c ∈ l, f c = c) → l.map f = l := by
  intro l
  induction l with
  | nil => intro _; rfl
  | cons x xs ih =>
    intro h
    simp only [List.map_cons]
    rw [h x (List.mem_cons_self _ _), ih (fun c hc => h c (List.mem_cons_of_mem _ hc))]

theorem mem_jsToLower_lower {s : String} {c : Char}
    (h : c ∈ (jsToLower s).data) : jsCharLower c = c := by
  have h2 : c ∈ s.data.map jsCharLower := h
  rcases List.mem_map.mp h2 with ⟨c2, _, rfl⟩
  exact jsCharLower_idem c2

theorem mem_jsSanitize_lower {s : String} {c : Char}
    (hs : ∀ c2 ∈ s.data, jsCharLower c2 = c2)
    (h : c ∈ (jsSanitize s).data) : jsCharLower c = c := by
  have h2 : c ∈ s.data.map sanitizeChar := h
  rcases List.mem_map.mp h2 with ⟨c2, hc2, rfl⟩
  unfold sanitizeChar
  by_cases hcase : (isWordChar c2 || isWsChar c2) = true
  · rw [if_pos hcase]
    exact hs c2 hc2
  · rw [if_neg hcase]
    decide

theorem collapseWs_cons₂ (d e : Char) (rest : List Char) :
    collapseWs (d :: e :: rest) =
      if isWsChar d && isWsChar e then collapseWs (e :: rest)
      else (if isWsChar d then ' ' else d) :: collapseWs (e :: rest) := rfl

theorem mem_collapseWs {c : Char} :
    ∀ {l : List Char}, c ∈ collapseWs l → c ∈ l ∨ c = ' ' := by
  intro l
  induction l with
  | nil => intro h; simp [collapseWs] at h
  | cons d rest ih =>
    intro h
    cases rest with
    | nil =>
      by_cases hd : isWsChar d = true
      · simp only [collapseWs, hd, if_true] at h
        simp at h
        exact Or.inr h
      · simp only [collapseWs, hd, if_false] at h
        simp at h
        exact Or.inl (by simp [h])
    | cons e rest2 =>
      rw [collapseWs_cons₂] at h
      by_cases hde : (isWsChar d && isWsChar e) = true
      · rw [if_pos hde] at h
        rcases ih h with h2 | h2
        · exact Or.inl (List.mem_cons_of_mem _ h2)
        · exact Or.inr h2
      · rw [if_neg hde] at h
        rcases List.mem_cons.mp h with rfl | h2
        · by_cases hd : isWsChar d = true
          · exact Or.inr (by rw [if_pos hd])
          · refine Or.inl ?_
            rw [if_neg hd]
            exact List.mem_cons_self _ _
        · rcases ih h2 with h3 | h3
          · exact Or.inl (List.mem_cons_of_mem _ h3)
          · exact Or.inr h3

theorem mem_jsTrim {c : Char} {l : List Char} (h : c ∈ jsTrim l) : c ∈ l := by
  unfold jsTrim at h
  have h1 : c ∈ (l.dropWhile isWsChar).reverse.dropWhile isWsChar :=
    List.mem_reverse.mp h
  have h2 : c ∈ (l.dropWhile isWsChar).reverse :=
    (List.dropWhile_sublist _).subset h1
  have h3 : c ∈ l.dropWhile isWsChar := List.mem_reverse.mp h2
  exact (List.dropWhile_sublist _).subset h3

theorem splitOnChar_cons (sep c : Char) (rest : List Char) :
    splitOnChar sep (c :: rest) =
      if c == sep then [] :: splitOnChar sep rest
      else
        match splitOnChar sep rest with
        | [] => [[c]]
        | piece :: more => (c :: piece) :: more := rfl

theorem mem_splitOnChar {sep : Char} {c : Char} :
    ∀ {l piece : List Char}, piece ∈ splitOnChar sep l → c ∈ piece → c ∈ l := by
  intro l
  induction l with
  | nil =>
    intro piece hp hc
    simp [splitOnChar] at hp
    subst hp
    simp at hc
  | cons d rest ih =>
    intro piece hp hc
    rw [splitOnChar_cons] at hp
    by_cases hd : (d == sep) = true
    · rw [if_pos hd] at hp
      rcases List.mem_cons.mp hp with rfl | hp
      · simp at hc
      · exact List.mem_cons_of_mem _ (ih hp hc)
    · rw [if_neg hd] at hp
      cases hsplit : splitOnChar sep rest with
      | nil =>
        rw [hsplit] at hp
        simp at hp
        subst hp
        simp at hc
        subst hc
        exact List.mem_cons_self _ _
      | cons q more =>
        rw [hsplit] at hp
        rcases List.mem_cons.mp hp with rfl | hp
        · rcases List.mem_cons.mp hc with rfl | hc
          · exact List.mem_cons_self _ _
          · have hq : q ∈ splitOnChar sep rest := by
              rw [hsplit]; exact List.mem_cons_self _ _
            exact List.mem_cons_of_mem _ (ih hq hc)
        · have hpiece : piece ∈ splitOnChar sep rest := by
            rw [hsplit]; exact List.mem_cons_of_mem _ hp
          exact List.mem_cons_of_mem _ (ih hpiece hc)

theorem cleanText_chars_lower {text : String} {c : Char}
    (h : c ∈ cleanText text) : jsCharLower c = c := by
  unfold cleanText at h
  have h2 := mem_jsTrim h
  rcases mem_collapseWs h2 with h3 | rfl
  · exact mem_jsSanitize_lower (fun c2 hc2 => mem_jsToLower_lower hc2) h3
  · decide

theorem wordsOf_chars_lower {text : String} {w : String} (hw : w ∈ wordsOf text) :
    ∀ c ∈ w.data, jsCharLower c = c := by
  intro c hc
  unfold wordsOf at hw
  have h1 := List.mem_of_mem_filter hw
  have h2 := List.mem_of_mem_filter h1
  rcases List.mem_map.mp h2 with ⟨piece, hpiece, rfl⟩
  exact cleanText_chars_lower (mem_splitOnChar hpiece hc)

theorem wordsOf_lower {text : String} {w : String} (hw : w ∈ wordsOf text) :
    jsToLower w = w := by
  have h := wordsOf_chars_lower hw
  show (⟨w.data.map jsCharLower⟩ : String) = w
  rw [map_eq_self_of_mem h]

theorem wordsOf_props {text : String} {w : String} (hw : w ∈ wordsOf text) :
    w.length > 2 ∧ stopWords.contains w = false ∧ isPureNumber w = false := by
  unfold wordsOf at hw
  have h1 := List.mem_filter.mp hw
  have h2 := List.mem_filter.mp h1.1
  have hlen := h2.2
  have hnum := h1.2
  simp only [Bool.and_eq_true, Bool.not_eq_true', decide_eq_true_eq] at hlen hnum
  exact ⟨hlen.1, hlen.2, hnum⟩

theorem mem_sortedTags {freq : List (String × Nat)} {t : String}
    (h : t ∈ sortedTags freq) : t ∈ domainKeywords.map (fun d => d.1) := by
  unfold sortedTags at h
  rcases List.mem_map.mp h with ⟨p, hp, rfl⟩
  have hp2 : p ∈ sortStable descKeep (tagScores freq) :=
    (List.take_sublist _ _).subset hp
  have hp3 : p ∈ tagScores freq := (sortStable_perm _ _).mem_iff.mp hp2
  rw [tagScores_eq] at hp3
  have hp4 := List.mem_of_mem_filter hp3
  rcases List.mem_map.mp hp4 with ⟨d, hd, rfl⟩
  exact List.mem_map.mpr ⟨d, hd, rfl⟩

theorem mem_meaningfulWords {freq : List (String × Nat)} {t : String}
    (h : t ∈ meaningfulWords freq) : t ∈ freq.map (fun kv => kv.1) := by
  unfold meaningfulWords at h
  rcases List.mem_map.mp h with ⟨p, hp, rfl⟩
  have hp2 : p ∈ sortStable descKeep (freq.filter (fun kv =>
      kv.2 ≥ 2 && kv.1.length ≥ 4 && kv.1.length ≤ 15)) :=
    (List.take_sublist _ _).subset hp
  have hp3 := (sortStable_perm _ _).mem_iff.mp hp2
  have hp4 := List.mem_of_mem_filter hp3
  exact List.mem_map.mpr ⟨p, hp4, rfl⟩

theorem mem_extract {text : String} {t : String}
    (h : t ∈ extractKeywordsAndTags text) :
    t ∈ sortedTags (wordFreq text) ∨ t ∈ meaningfulWords (wordFreq text) := by
  unfold extractKeywordsAndTags at h
  by_cases hguard : ((jsTrim text.data).length == 0) = true
  · rw [if_pos hguard] at h
    simp at h
  · rw [if_neg hguard] at h
    have h2 : t ∈ dedupFirst (sortedTags (wordFreq text) ++
        meaningfulWords (wordFreq text)) := (List.take_sublist _ _).subset h
    exact List.mem_append.mp (dedupFirst_subset h2)

theorem domainNames_nodup : (domainKeywords.map (fun d => d.1)).Nodup := by decide

theorem tagScores_names_sublist (freq : List (String × Nat)) :
    ((tagScores freq).map (fun p => p.1)).Sublist
      (domainKeywords.map (fun d => d.1)) := by
  rw [tagScores_eq]
  have h1 := List.filter_sublist (p := fun p => p.2 > 0)
    (domainKeywords.map (fun d => (d.1, specDomainScore freq d.2)))
  have h2 := List.Sublist.map (fun p => p.1) h1
  simpa [List.map_map, Function.comp] using h2

theorem sortedTags_nodup (freq : List (String × Nat)) :
    (sortedTags freq).Nodup := by
  unfold sortedTags
  have hperm : (sortStable descKeep (tagScores freq)).Perm (tagScores freq) :=
    sortStable_perm _ _
  have h1 : ((sortStable descKeep (tagScores freq)).map (fun p => p.1)).Nodup := by
    refine ((hperm.map (fun p => p.1)).nodup_iff).mpr ?_
    exact (tagScores_names_sublist freq).nodup domainNames_nodup
  exact (List.Sublist.map _ (List.take_sublist _ _)).nodup h1

theorem extract_eq_of_guard_false {text : String}
    (h : ((jsTrim text.data).length == 0) = false) :
    extractKeywordsAndTags text =
      (dedupFirst (sortedTags (wordFreq text) ++
        meaningfulWords (wordFreq text))).take 6 := by
  unfold extractKeywordsAndTags
  rw [if_neg (by simp [h])]

theorem amended_eq_of_guard_false {text : String}
    (h : ((jsTrim text.data).length == 0) = false) :
    amendedC5Tags text =
      (dedupFirst (specDomainTags (wordFreq text) ++
        meaningfulWords (wordFreq text))).take 6 := by
  unfold amendedC5Tags
  rw [if_neg (by simp [h])]
  exact rfl

theorem extract_eq_amended (text : String) :
    extractKeywordsAndTags text = amendedC5Tags text := by
  by_cases hguard : ((jsTrim text.data).length == 0) = true
  · unfold extractKeywordsAndTags amendedC5Tags
    rw [if_pos hguard, if_pos hguard]
  · have hg : ((jsTrim text.data).length == 0) = false := by simpa using hguard
    rw [extract_eq_of_guard_false hg, amended_eq_of_guard_false hg,
      sortedTags_eq_spec]

theorem extract_cap {text : String}
    (h5 : (sortedTags (wordFreq text)).length = 5) :
    ((extractKeywordsAndTags text).filter
      (fun t => !((sortedTags (wordFreq text)).contains t))).length ≤ 1 := by
  by_cases hguard : ((jsTrim text.data).length == 0) = true
  · unfold extractKeywordsAndTags
    rw [if_pos hguard]
    simp
  · have hg : ((jsTrim text.data).length == 0) = false := by simpa using hguard
    rw [extract_eq_of_guard_false hg]
    obtain ⟨rest, hr, _⟩ := dedupFirstAux_append_nodup
      (sortedTags (wordFreq text)) [] (meaningfulWords (wordFreq text))
      (sortedTags_nodup _) (by simp)
    have hdd : dedupFirst (sortedTags (wordFreq text) ++
        meaningfulWords (wordFreq text)) = sortedTags (wordFreq text) ++ rest := hr
    rw [hdd, List.take_append_eq_append_take,
      List.take_of_length_le (by omega : (sortedTags (wordFreq text)).length ≤ 6),
      List.filter_append]
    have hdt : (sortedTags (wordFreq text)).filter
        (fun t => !((sortedTags (wordFreq text)).contains t)) = [] := by
      refine List.filter_eq_nil_iff.mpr ?_
      intro a ha
      simp [ha]
    rw [hdt]
    have hlen1 : ((List.take (6 - (sortedTags (wordFreq text)).length) rest).filter
        (fun t => !((sortedTags (wordFreq text)).contains t))).length ≤
          6 - (sortedTags (wordFreq text)).length :=
      le_trans (List.length_filter_le _ _) (List.length_take_le _ _)
    simp only [List.nil_append]
    omega

theorem ensureTagExists_found {c : String → Bool} {tags : List (Nat × String)}
    {nid : Nat} {n : String} {id : Nat}
    (hf : findTagSingle tags (jsToLower n) = some id) :
    ensureTagExists c tags nid n = (some id, tags, nid) := by
  simp only [ensureTagExists]
  rw [hf]

theorem ensureTagExists_create {c : String → Bool} {tags : List (Nat × String)}
    {nid : Nat} {n : String}
    (hf : findTagSingle tags (jsToLower n) = none) (hc : c (jsToLower n) = true) :
    ensureTagExists c tags nid n =
      (some nid, tags ++ [(nid, jsToLower n)], nid + 1) := by
  simp only [ensureTagExists]
  rw [hf, if_pos hc]

theorem ensureTagExists_fail {c : String → Bool} {tags : List (Nat × String)}
    {nid : Nat} {n : String}
    (hf : findTagSingle tags (jsToLower n) = none) (hc : c (jsToLower n) = false) :
    ensureTagExists c tags nid n = (none, tags, nid) := by
  simp only [ensureTagExists]
  rw [hf, if_neg (by simp [hc])]

theorem ensureTagExists_none_eq {c : String → Bool} {tags : List (Nat × String)}
    {nid : Nat} {n : String}
    (h : (ensureTagExists c tags nid n).1 = none) :
    ensureTagExists c tags nid n = (none, tags, nid) := by
  cases hf : findTagSingle tags (jsToLower n) with
  | some id => rw [ensureTagExists_found hf] at h; simp at h
  | none =>
    by_cases hc : c (jsToLower n) = true
    · rw [ensureTagExists_create hf hc] at h; simp at h
    · exact ensureTagExists_fail hf (by simpa using hc)

theorem resolveTags_cons_some {c : String → Bool} {tags : List (Nat × String)}
    {nid : Nat} {n : String} {id : Nat} {tags1 : List (Nat × String)} {nid1 : Nat}
    {ns : List String} {ids0 : List Nat} {tags0 : List (Nat × String)} {nid0 : Nat}
    (he : ensureTagExists c tags nid n = (some id, tags1, nid1))
    (hr : resolveTags c tags1 nid1 ns = (ids0, tags0, nid0)) :
    resolveTags c tags nid (n :: ns) = (id :: ids0, tags0, nid0) := by
  unfold resolveTags
  rw [he]
  show (id :: (resolveTags c tags1 nid1 ns).1, (resolveTags c tags1 nid1 ns).2) =
    (id :: ids0, tags0, nid0)
  rw [hr]

theorem resolveTags_cons_none {c : String → Bool} {tags : List (Nat × String)}
    {nid : Nat} {n : String} {ns : List String}
    (h : (ensureTagExists c tags nid n).1 = none) :
    resolveTags c tags nid (n :: ns) = resolveTags c tags nid ns := by
  conv_lhs => unfold resolveTags
  rw [ensureTagExists_none_eq h]

theorem filter_snd_nil_of_not_mem {tags : List (Nat × String)} {x : String}
    (h : x ∉ tags.map (fun e => e.2)) :
    tags.filter (fun t => t.2 == x) = [] := by
  refine List.filter_eq_nil_iff.mpr ?_
  intro t ht hteq
  exact h (List.mem_map.mpr ⟨t, ht, eq_of_beq hteq⟩)

theorem filter_snd_len_le {tags : List (Nat × String)}
    (h : (tags.map (fun e => e.2)).Nodup) (x : String) :
    (tags.filter (fun t => t.2 == x)).length ≤ 1 := by
  induction tags with
  | nil => simp
  | cons t rest ih =>
    rw [List.map_cons, List.nodup_cons] at h
    rw [List.filter_cons]
    by_cases hx : (t.2 == x) = true
    · rw [if_pos hx]
      have hnil : rest.filter (fun t => t.2 == x) = [] := by
        apply filter_snd_nil_of_not_mem
        rw [← eq_of_beq hx]
        exact h.1
      simp [hnil]
    · rw [if_neg hx]
      exact ih h.2

theorem findTagSingle_none_not_mem {tags : List (Nat × String)} {x : String}
    (h : (tags.map (fun e => e.2)).Nodup) (hf : findTagSingle tags x = none) :
    x ∉ tags.map (fun e => e.2) := by
  intro hx
  rcases List.mem_map.mp hx with ⟨t, ht, hteq⟩
  have hmem : t ∈ tags.filter (fun t => t.2 == x) :=
    List.mem_filter.mpr ⟨ht, by simp [hteq]⟩
  have h1 := filter_snd_len_le h x
  have h0 := List.length_pos.mpr (List.ne_nil_of_mem hmem)
  have h2 : (tags.filter (fun t => t.2 == x)).length = 1 := by omega
  rcases List.length_eq_one.mp h2 with ⟨a, ha⟩
  unfold findTagSingle at hf
  rw [ha] at hf
  simp at hf

theorem findTagSingle_some_eq {tags : List (Nat × String)} {x : String} {id : Nat}
    (hf : findTagSingle tags x = some id) :
    ∃ t, tags.filter (fun t => t.2 == x) = [t] ∧ t.1 = id ∧ t ∈ tags ∧ t.2 = x := by
  unfold findTagSingle at hf
  cases hfil : tags.filter (fun t => t.2 == x) with
  | nil => rw [hfil] at hf; simp at hf
  | cons t rest =>
    cases rest with
    | nil =>
      rw [hfil] at hf
      have hid : t.1 = id := by simpa using hf
      have htf : t ∈ tags.filter (fun t => t.2 == x) := by
        rw [hfil]; exact List.mem_cons_self _ _
      exact ⟨t, rfl, hid, List.mem_of_mem_filter htf,
        eq_of_beq (List.mem_filter.mp htf).2⟩
    | cons u rest2 => rw [hfil] at hf; simp at hf

theorem jsToLower_idem (s : String) : jsToLower (jsToLower s) = jsToLower s := by
  have h : (s.data.map jsCharLower).map jsCharLower = s.data.map jsCharLower := by
    apply map_eq_self_of_mem
    intro c hc
    rcases List.mem_map.mp hc with ⟨c2, _, rfl⟩
    exact jsCharLower_idem c2
  show String.mk ((s.data.map jsCharLower).map jsCharLower) =
    String.mk (s.data.map jsCharLower)
  rw [h]

theorem appended_snd_nodup (nid : Nat) {tags : List (Nat × String)} {lname : String}
    (h : (tags.map (fun e => e.2)).Nodup)
    (hnm : lname ∉ tags.map (fun e => e.2)) :
    ((tags ++ [(nid, lname)]).map (fun e => e.2)).Nodup := by
  rw [List.map_append, List.nodup_append]
  refine ⟨h, by simp, ?_⟩
  intro a ha hb
  simp at hb
  subst hb
  exact hnm ha

theorem ensureTagExists_WF {c : String → Bool} {tags : List (Nat × String)}
    {nid : Nat} {n : String} {res : Option Nat} {tags1 : List (Nat × String)}
    {nid1 : Nat} (hwf : TagsWF tags)
    (he : ensureTagExists c tags nid n = (res, tags1, nid1)) : TagsWF tags1 := by
  cases hf : findTagSingle tags (jsToLower n) with
  | some id =>
    rw [ensureTagExists_found hf] at he
    simp only [Prod.mk.injEq] at he
    rw [← he.2.1]
    exact hwf
  | none =>
    by_cases hc : c (jsToLower n) = true
    · rw [ensureTagExists_create hf hc] at he
      simp only [Prod.mk.injEq] at he
      rw [← he.2.1]
      constructor
      · intro e hemem
        rcases List.mem_append.mp hemem with hemem | hemem
        · exact hwf.1 e hemem
        · simp at hemem
          subst hemem
          exact jsToLower_idem n
      · exact appended_snd_nodup nid hwf.2 (findTagSingle_none_not_mem hwf.2 hf)
    · rw [ensureTagExists_fail hf (by simpa using hc)] at he
      simp only [Prod.mk.injEq] at he
      rw [← he.2.1]
      exact hwf

theorem resolveTags_WF {c : String → Bool} :
    ∀ (ns : List String) (tags : List (Nat × String)) (nid : Nat),
      TagsWF tags → TagsWF (resolveTags c tags nid ns).2.1 := by
  intro ns
  induction ns with
  | nil => intro tags nid h; exact h
  | cons n ns ih =>
    intro tags nid h
    rcases he : ensureTagExists c tags nid n with ⟨res, tags1, nid1⟩
    have hwf1 : TagsWF tags1 := ensureTagExists_WF h he
    cases res with
    | some id =>
      rcases hr : resolveTags c tags1 nid1 ns with ⟨ids0, tags0, nid0⟩
      rw [resolveTags_cons_some he hr]
      have := ih tags1 nid1 hwf1
      rw [hr] at this
      exact this
    | none =>
      have he1 : (ensureTagExists c tags nid n).1 = none := by rw [he]
      have he2 := ensureTagExists_none_eq he1
      rw [resolveTags_cons_none he1]
      exact ih tags nid h

theorem reconcile_WF {c : String → Bool} {s : TagStore} {f : Nat}
    {ns : List String} (h : TagsWF s.tags) :
    TagsWF (reconcile c s f ns).1.tags := by
  have := resolveTags_WF (c := c) ns s.tags s.nextId h
  exact this

theorem runAll_WF {c : String → Bool} :
    ∀ (ops : List (Nat × List String)) (s : TagStore), TagsWF s.tags →
      TagsWF (runAll c s ops).tags := by
  intro ops
  induction ops with
  | nil => intro s h; exact h
  | cons op ops ih =>
    intro s h
    exact ih _ (reconcile_WF h)

theorem TagsWF_ciUnique {tags : List (Nat × String)} (h : TagsWF tags) :
    CaseInsensitivelyUnique tags := by
  unfold CaseInsensitivelyUnique
  refine List.Pairwise.imp_of_mem ?_ h.2
  intro a b ha hb hne
  rcases List.mem_map.mp ha with ⟨e1, he1, rfl⟩
  rcases List.mem_map.mp hb with ⟨e2, he2, rfl⟩
  rw [h.1 e1 he1, h.1 e2 he2]
  exact hne

theorem resolveTags_ext {c : String → Bool} :
    ∀ (ns : List String) (tags : List (Nat × String)) (nid : Nat),
      (tags.map (fun e => e.2)).Nodup →
      ∀ {ids : List Nat} {tags2 : List (Nat × String)} {nid2 : Nat},
        resolveTags c tags nid ns = (ids, tags2, nid2) →
        ∃ ext, tags2 = tags ++ ext ∧
          ((tags ++ ext).map (fun e => e.2)).Nodup ∧
          ∀ e ∈ ext, c e.2 = true ∧ e.2 ∉ tags.map (fun e => e.2) := by
  intro ns
  induction ns with
  | nil =>
    intro tags nid h ids tags2 nid2 hrun
    have hrun2 : (([] : List Nat), tags, nid) = (ids, tags2, nid2) := hrun
    simp only [Prod.mk.injEq] at hrun2
    refine ⟨[], by rw [← hrun2.2.1]; simp, by simpa using h, by simp⟩
  | cons n ns ih =>
    intro tags nid h ids tags2 nid2 hrun
    cases hf : findTagSingle tags (jsToLower n) with
    | some id =>
      rcases h0 : resolveTags c tags nid ns with ⟨ids0, tags0, nid0⟩
      rw [resolveTags_cons_some (ensureTagExists_found hf) h0] at hrun
      simp only [Prod.mk.injEq] at hrun
      rw [← hrun.2.1]
      exact ih tags nid h h0
    | none =>
      by_cases hc : c (jsToLower n) = true
      · rcases h0 : resolveTags c (tags ++ [(nid, jsToLower n)]) (nid + 1) ns with
          ⟨ids0, tags0, nid0⟩
        rw [resolveTags_cons_some (ensureTagExists_create hf hc) h0] at hrun
        simp only [Prod.mk.injEq] at hrun
        rw [← hrun.2.1]
        have hnotmem := findTagSingle_none_not_mem h hf
        have hnd1 := appended_snd_nodup nid h hnotmem
        rcases ih (tags ++ [(nid, jsToLower n)]) (nid + 1) hnd1 h0 with
          ⟨ext1, he1, hnd2, hprops⟩
        refine ⟨(nid, jsToLower n) :: ext1, ?_, ?_, ?_⟩
        · rw [he1]
          simp
        · have : tags ++ (nid, jsToLower n) :: ext1 =
            (tags ++ [(nid, jsToLower n)]) ++ ext1 := by simp
          rw [this]
          exact hnd2
        · intro e he
          rcases List.mem_cons.mp he with rfl | he
          · exact ⟨hc, hnotmem⟩
          · rcases hprops e he with ⟨hce, hmem⟩
            refine ⟨hce, fun hx => hmem ?_⟩
            rw [List.map_append]
            exact List.mem_append_left _ hx
      · have hcf : c (jsToLower n) = false := by simpa using hc
        rw [resolveTags_cons_none
          (by rw [ensureTagExists_fail hf hcf])] at hrun
        exact ih tags nid h hrun

theorem resolveTags_again {c : String → Bool} :
    ∀ (ns : List String) (tags : List (Nat × String)) (nid : Nat),
      (tags.map (fun e => e.2)).Nodup →
      ∀ {ids : List Nat} {tags2 : List (Nat × String)} {nid2 : Nat},
        resolveTags c tags nid ns = (ids, tags2, nid2) →
        resolveTags c tags2 nid2 ns = (ids, tags2, nid2) := by
  intro ns
  induction ns with
  | nil =>
    intro tags nid h ids tags2 nid2 hrun
    have hrun2 : (([] : List Nat), tags, nid) = (ids, tags2, nid2) := hrun
    simp only [Prod.mk.injEq] at hrun2
    rw [← hrun2.1, ← hrun2.2.1, ← hrun2.2.2]
    rfl
  | cons n ns ih =>
    intro tags nid h ids tags2 nid2 hrun
    cases hf : findTagSingle tags (jsToLower n) with
    | some id =>
      obtain ⟨t, hfil, hid, htmem, hteq⟩ := findTagSingle_some_eq hf
      rcases h0 : resolveTags c tags nid ns with ⟨ids0, tags0, nid0⟩
      rw [resolveTags_cons_some (ensureTagExists_found hf) h0] at hrun
      simp only [Prod.mk.injEq] at hrun
      rw [← hrun.1, ← hrun.2.1, ← hrun.2.2]
      rcases resolveTags_ext ns tags nid h h0 with ⟨ext, hext, _, hprops⟩
      have hf2 : findTagSingle tags0 (jsToLower n) = some id := by
        rw [hext]
        unfold findTagSingle
        rw [List.filter_append, hfil]
        have hextnil : ext.filter (fun t => t.2 == jsToLower n) = [] := by
          refine List.filter_eq_nil_iff.mpr ?_
          intro e he heq
          exact (hprops e he).2
            ((eq_of_beq heq) ▸ List.mem_map.mpr ⟨t, htmem, hteq⟩)
        rw [hextnil]
        simp [hid]
      exact resolveTags_cons_some (ensureTagExists_found hf2) (ih tags nid h h0)
    | none =>
      by_cases hc : c (jsToLower n) = true
      · rcases h0 : resolveTags c (tags ++ [(nid, jsToLower n)]) (nid + 1) ns with
          ⟨ids0, tags0, nid0⟩
        rw [resolveTags_cons_some (ensureTagExists_create hf hc) h0] at hrun
        simp only [Prod.mk.injEq] at hrun
        rw [← hrun.1, ← hrun.2.1, ← hrun.2.2]
        have hnotmem := findTagSingle_none_not_mem h hf
        have hnd1 := appended_snd_nodup nid h hnotmem
        rcases resolveTags_ext ns (tags ++ [(nid, jsToLower n)]) (nid + 1) hnd1 h0
          with ⟨ext, hext, _, hprops⟩
        have hf2 : findTagSingle tags0 (jsToLower n) = some nid := by
          rw [hext]
          unfold findTagSingle
          rw [List.filter_append, List.filter_append,
            filter_snd_nil_of_not_mem hnotmem]
          have hextnil : ext.filter (fun t => t.2 == jsToLower n) = [] := by
            refine List.filter_eq_nil_iff.mpr ?_
            intro e he heq
            refine (hprops e he).2 ?_
            rw [List.map_append]
            refine List.mem_append_right _ ?_
            simp [eq_of_beq heq]
          rw [hextnil]
          simp
        exact resolveTags_cons_some (ensureTagExists_found hf2)
          (ih (tags ++ [(nid, jsToLower n)]) (nid + 1) hnd1 h0)
      · have hcf : c (jsToLower n) = false := by simpa using hc
        have hskip : (ensureTagExists c tags nid n).1 = none := by
          rw [ensureTagExists_fail hf hcf]
        rw [resolveTags_cons_none hskip] at hrun
        rcases resolveTags_ext ns tags nid h hrun with ⟨ext, hext, _, hprops⟩
        have hf2 : findTagSingle tags2 (jsToLower n) = none := by
          rw [hext]
          unfold findTagSingle
          rw [List.filter_append, filter_snd_nil_of_not_mem
            (findTagSingle_none_not_mem h hf)]
          have hextnil : ext.filter (fun t => t.2 == jsToLower n) = [] := by
            refine List.filter_eq_nil_iff.mpr ?_
            intro e he heq
            have := (hprops e he).1
            rw [eq_of_beq heq] at this
            rw [this] at hcf
            exact absurd hcf (by simp)
          rw [hextnil]
          rfl
        have hskip2 : (ensureTagExists c tags2 nid2 n).1 = none := by
          rw [ensureTagExists_fail hf2 hcf]
        rw [resolveTags_cons_none hskip2]
        exact ih tags nid h hrun

theorem filter_ne_filter_ne {f : Nat} (l : List (Nat × Nat)) :
    (l.filter (fun x => x.1 != f)).filter (fun x => x.1 != f) =
      l.filter (fun x => x.1 != f) := by
  rw [List.filter_filter]
  exact List.filter_congr (fun a _ => Bool.and_self _)

theorem filter_ne_map_nil {f : Nat} (ids : List Nat) :
    (ids.map (fun t => (f, t))).filter (fun x => x.1 != f) = [] := by
  refine List.filter_eq_nil_iff.mpr ?_
  intro a ha
  rcases List.mem_map.mp ha with ⟨t, _, rfl⟩
  simp

theorem linkFileTags_links {ft : List (Nat × Nat)} {f : Nat} {ids : List Nat}
    (h : ids ≠ []) :
    ((linkFileTags ft f ids).filter (fun x => x.1 == f)).map (fun x => x.2) =
      ids := by
  unfold linkFileTags
  rw [if_pos (List.length_pos.mpr h)]
  rw [List.filter_append]
  have h1 : (ft.filter (fun x => x.1 != f)).filter (fun x => x.1 == f) = [] := by
    rw [List.filter_filter]
    refine List.filter_eq_nil_iff.mpr ?_
    intro a _
    simp [bne]
  have h2 : (ids.map (fun t => (f, t))).filter (fun x => x.1 == f) =
      ids.map (fun t => (f, t)) := by
    refine List.filter_eq_self.mpr ?_
    intro a ha
    rcases List.mem_map.mp ha with ⟨t, _, rfl⟩
    simp
  rw [h1, h2]
  simp [List.map_map, Function.comp]

theorem linkFileTags_idem {ft : List (Nat × Nat)} {f : Nat} {ids : List Nat} :
    linkFileTags (linkFileTags ft f ids) f ids = linkFileTags ft f ids := by
  simp only [linkFileTags]
  by_cases h : ids.length > 0
  · simp only [if_pos h]
    rw [List.filter_append, filter_ne_filter_ne, filter_ne_map_nil]
    simp
  · simp only [if_neg h]
    exact filter_ne_filter_ne ft

theorem reconcile_eq {c : String → Bool} {s : TagStore} {f : Nat}
    {ns : List String} {ids : List Nat} {tags2 : List (Nat × String)} {nid2 : Nat}
    (hrun : resolveTags c s.tags s.nextId ns = (ids, tags2, nid2)) :
    reconcile c s f ns =
      (⟨tags2, if ids.length > 0 then linkFileTags s.fileTags f ids
        else s.fileTags, nid2⟩, ids.length) := by
  unfold reconcile
  rw [hrun]

theorem reconcile_idem {c : String → Bool} {s : TagStore} {f : Nat}
    {ns : List String} (h : (s.tags.map (fun e => e.2)).Nodup) :
    reconcile c (reconcile c s f ns).1 f ns = reconcile c s f ns := by
  rcases hrun : resolveTags c s.tags s.nextId ns with ⟨ids, tags2, nid2⟩
  rw [reconcile_eq hrun]
  have hrun2 : resolveTags c tags2 nid2 ns = (ids, tags2, nid2) :=
    resolveTags_again ns s.tags s.nextId h hrun
  by_cases hlen : ids.length > 0
  · rw [if_pos hlen]
    have hrec2 := reconcile_eq (s := ⟨tags2, linkFileTags s.fileTags f ids, nid2⟩)
      (f := f) hrun2
    rw [hrec2, if_pos hlen]
    rw [linkFileTags_idem]
  · rw [if_neg hlen]
    have hrec2 := reconcile_eq (s := ⟨tags2, s.fileTags, nid2⟩) (f := f) hrun2
    rw [hrec2, if_neg hlen]

theorem resolveTags_length_le {c : String → Bool} :
    ∀ (ns : List String) (tags : List (Nat × String)) (nid : Nat),
      (resolveTags c tags nid ns).1.length ≤ ns.length := by
  intro ns
  induction ns with
  | nil => intro tags nid; simp [resolveTags]
  | cons n ns ih =>
    intro tags nid
    rcases he : ensureTagExists c tags nid n with ⟨res, tags1, nid1⟩
    cases res with
    | some id =>
      rcases h0 : resolveTags c tags1 nid1 ns with ⟨ids0, tags0, nid0⟩
      rw [resolveTags_cons_some he h0]
      have := ih tags1 nid1
      rw [h0] at this
      simpa using this
    | none =>
      rw [resolveTags_cons_none (by rw [he])]
      exact le_trans (ih tags nid) (Nat.le_succ _)

theorem autoTag_valid {c : String → Bool} {s : TagStore} {f : Nat} {text : String}
    (hf : f ≠ 0) (ht : text ≠ "") :
    autoTag c s f text =
      (if (extractKeywordsAndTags text).isEmpty then (s, TagResponse.noTags)
       else
        ((⟨(resolveTags c s.tags s.nextId (extractKeywordsAndTags text)).2.1,
          if (resolveTags c s.tags s.nextId (extractKeywordsAndTags text)).1.length > 0
          then linkFileTags s.fileTags f
            (resolveTags c s.tags s.nextId (extractKeywordsAndTags text)).1
          else s.fileTags,
          (resolveTags c s.tags s.nextId (extractKeywordsAndTags text)).2.2⟩ : TagStore),
          TagResponse.tagged (extractKeywordsAndTags text)
            (resolveTags c s.tags s.nextId (extractKeywordsAndTags text)).1.length)) := by
  unfold autoTag
  rw [if_neg (by simp [hf, ht])]

theorem autoTag_noTags {c : String → Bool} {s : TagStore} {f : Nat} {text : String}
    (hf : f ≠ 0) (ht : text ≠ "")
    (hext : extractKeywordsAndTags text = []) :
    autoTag c s f text = (s, TagResponse.noTags) := by
  rw [autoTag_valid hf ht, if_pos (by simp [hext])]

theorem autoTag_tagged {c : String → Bool} {s : TagStore} {f : Nat} {text : String}
    (hf : f ≠ 0) (ht : text ≠ "")
    (hext : extractKeywordsAndTags text ≠ [])
    {ids : List Nat} {tags2 : List (Nat × String)} {nid2 : Nat}
    (hrun : resolveTags c s.tags s.nextId (extractKeywordsAndTags text) =
      (ids, tags2, nid2)) :
    autoTag c s f text =
      (⟨tags2, if ids.length > 0 then linkFileTags s.fileTags f ids
        else s.fileTags, nid2⟩,
       TagResponse.tagged (extractKeywordsAndTags text) ids.length) := by
  rw [autoTag_valid hf ht, if_neg (by simp [hext]), hrun]

theorem jsTrim_of_all_ws {l : List Char}
    (h : ∀ ch ∈ l, isWsChar ch = true) : jsTrim l = [] := by
  unfold jsTrim
  rw [List.dropWhile_eq_nil_iff.mpr h]
  simp

theorem extract_of_ws {text : String}
    (h : ∀ ch ∈ text.data, isWsChar ch = true) :
    extractKeywordsAndTags text = [] := by
  unfold extractKeywordsAndTags
  rw [if_pos (by rw [jsTrim_of_all_ws h]; rfl)]

theorem textForIndex_of_ws {ext fn : String}
    (h : ∀ ch ∈ ext.data, isWsChar ch = true) : textForIndex ext fn = fn := by
  unfold textForIndex
  rw [if_neg (by simp [jsTrim_of_all_ws h])]

theorem ensure_same_id {c : String → Bool} {tags : List (Nat × String)}
    {nid : Nat} {n1 n2 : String} {id : Nat} {tags1 : List (Nat × String)}
    {nid1 : Nat} (hnd : (tags.map (fun e => e.2)).Nodup)
    (hlow : jsToLower n1 = jsToLower n2)
    (h : ensureTagExists c tags nid n1 = (some id, tags1, nid1)) :
    ensureTagExists c tags1 nid1 n2 = (some id, tags1, nid1) := by
  cases hf : findTagSingle tags (jsToLower n1) with
  | some i =>
    rw [ensureTagExists_found hf] at h
    simp only [Prod.mk.injEq, Option.some.injEq] at h
    obtain ⟨hid, htags, hnid⟩ := h
    subst htags
    subst hnid
    apply ensureTagExists_found
    rw [← hlow, hf, hid]
  | none =>
    by_cases hc : c (jsToLower n1) = true
    · rw [ensureTagExists_create hf hc] at h
      simp only [Prod.mk.injEq, Option.some.injEq] at h
      obtain ⟨hid, htags, hnid⟩ := h
      subst htags
      subst hnid
      apply ensureTagExists_found
      rw [← hlow]
      unfold findTagSingle
      rw [List.filter_append,
        filter_snd_nil_of_not_mem (findTagSingle_none_not_mem hnd hf)]
      simp [hid]
    · rw [ensureTagExists_fail hf (by simpa using hc)] at h
      simp at h

theorem rankKeep_true_iff (y x : Scored) :
    rankKeep y x = true ↔
      (x.score < y.score ∨
        (y.score = x.score ∧ x.cand.uploadDate ≤ y.cand.uploadDate)) := by
  unfold rankKeep
  by_cases h : (y.score == x.score) = true
  · rw [if_pos h]
    have he : y.score = x.score := by simpa using h
    simp [he]
  · rw [if_neg h]
    have hne : y.score ≠ x.score := by simpa using h
    simp [hne]

theorem rankKeep_total (a b : Scored) (h : rankKeep a b = false) :
    rankKeep b a = true := by
  have h2 : ¬(b.score < a.score ∨
      (a.score = b.score ∧ b.cand.uploadDate ≤ a.cand.uploadDate)) := by
    rw [← rankKeep_true_iff]
    simp [h]
  rw [rankKeep_true_iff]
  omega

theorem rankKeep_trans (a b c : Scored) (hab : rankKeep a b = true)
    (hbc : rankKeep b c = true) : rankKeep a c = true := by
  rw [rankKeep_true_iff] at hab hbc ⊢
  omega

/-- Claim C1: for every input text, the domain-tag list produced by the
classifier (positive-score domains of the fixed table, ranked by the
weighted keyword score, descending, ties in declaration order, first 5
taken) equals the reference computation stated in the spec, with weight 2
for keywords longer than 4 characters and weight 1 otherwise. -/
theorem C1_domain_tags_match_spec (text : String) :
    sortedTags (wordFreq text) = specDomainTags (wordFreq text) :=
  sortedTags_eq_spec (wordFreq text)

/-- Claim C2 counterexample: a run that resolves zero tags (text made of
stop words only) returns early and does not delete the existing links, so
the document keeps its stale tag link instead of ending with zero links. -/
theorem C2_counterexample :
    extractKeywordsAndTags "the the the" = [] ∧
    (autoTag (fun _ => true) ⟨[(1, "legacy")], [(7, 1)], 2⟩ 7
      "the the the").1.fileTags = [(7, 1)] ∧
    linksFor (autoTag (fun _ => true) ⟨[(1, "legacy")], [(7, 1)], 2⟩ 7
      "the the the").1 7 = [1] := by
  refine ⟨by decide, by decide, by decide⟩

/-- Claim C2 amended: when the run resolves at least one tag id, the final
link set of the document is exactly the id list resolved in that run
(full replacement, previous links deleted first); when the run resolves
zero tag ids, the store is left untouched, so earlier links survive. -/
theorem C2_amended_link_replacement (c : String → Bool) (s : TagStore)
    (f : Nat) (text : String) (hf : f ≠ 0) (ht : text ≠ "")
    (ids : List Nat) (tags2 : List (Nat × String)) (nid2 : Nat)
    (hrun : resolveTags c s.tags s.nextId (extractKeywordsAndTags text) =
      (ids, tags2, nid2)) :
    (ids ≠ [] → linksFor (autoTag c s f text).1 f = ids) ∧
    (ids = [] → (autoTag c s f text).1.fileTags = s.fileTags) := by
  by_cases hext : extractKeywordsAndTags text = []
  · rw [hext] at hrun
    have h2 : (([] : List Nat), s.tags, s.nextId) = (ids, tags2, nid2) := hrun
    simp only [Prod.mk.injEq] at h2
    constructor
    · intro hne
      exact absurd h2.1.symm hne
    · intro _
      rw [autoTag_noTags hf ht hext]
  · constructor
    · intro hne
      rw [autoTag_tagged hf ht hext hrun]
      show ((if ids.length > 0 then linkFileTags s.fileTags f ids
        else s.fileTags).filter (fun ft => ft.1 == f)).map (fun ft => ft.2) = ids
      rw [if_pos (List.length_pos.mpr hne)]
      exact linkFileTags_links hne
    · intro hnil
      rw [autoTag_tagged hf ht hext hrun]
      show (if ids.length > 0 then linkFileTags s.fileTags f ids
        else s.fileTags) = s.fileTags
      rw [if_neg (by simp [hnil])]

/-- Claim C2 amended, witness: a concrete run that resolves two tags
replaces the link set of document 3 with exactly those two ids. -/
theorem C2_amended_witness :
    linksFor (autoTag (fun _ => true) ⟨[], [], 0⟩ 3 "invoice invoice").1 3 =
      [0, 1] :=
  (C2_amended_link_replacement (fun _ => true) ⟨[], [], 0⟩ 3 "invoice invoice"
    (by decide) (by decide) [0, 1] [(0, "finance"), (1, "invoice")] 2
    (by decide)).1 (by decide)

/-- Claim C3: the relevance score of a candidate is 3 when the lower-cased
query occurs in both the filename and the indexed text, 2 when it occurs
in the filename but not the text, and 1 otherwise; on the three-document
example for the query report, C scores 3, A scores 2, B scores 1, and the
ranking order is C, A, B. -/
theorem C3_relevance_tiering :
    (∀ (q : String) (cand : Candidate),
      (inName (searchTermsOf q) cand = true → inText (searchTermsOf q) cand = true →
        relevanceScore (searchTermsOf q) cand = 3) ∧
      (inName (searchTermsOf q) cand = true → inText (searchTermsOf q) cand = false →
        relevanceScore (searchTermsOf q) cand = 2) ∧
      (inName (searchTermsOf q) cand = false →
        relevanceScore (searchTermsOf q) cand = 1)) ∧
    (rankResults "report"
      [⟨1, "report_a.pdf", some "nothing here", 100⟩,
       ⟨2, "notes.pdf", some "quarterly report text", 200⟩,
       ⟨3, "report_c.pdf", some "the report body", 300⟩]).map
      (fun r => (r.cand.id, r.score)) = [(3, 3), (1, 2), (2, 1)] := by
  constructor
  · intro q cand
    refine ⟨?_, ?_, ?_⟩
    · intro h1 h2
      unfold relevanceScore
      rw [if_pos h1, if_pos h2]
    · intro h1 h2
      unfold relevanceScore
      rw [if_pos h1, if_neg (by simp [h2])]
    · intro h1
      unfold relevanceScore
      rw [if_neg (by simp [h1])]
  · decide

/-- Claim C3 witness: the candidate matching in both filename and text
receives score 3 for the query report. -/
theorem C3_witness :
    relevanceScore (searchTermsOf "report")
      ⟨3, "report_c.pdf", some "the report body", 300⟩ = 3 :=
  (C3_relevance_tiering.1 "report"
    ⟨3, "report_c.pdf", some "the report body", 300⟩).1 (by decide) (by decide)

/-- Claim C4: the search results are ordered by relevance score descending
and then by upload timestamp descending, they are a permutation of the
scored candidates, and the sort is stable: candidates with equal score and
equal timestamp keep their input relative order. -/
theorem C4_rank_ordering (q : String) (cands : List Candidate) :
    (rankResults q cands).Pairwise (fun a b =>
      b.score < a.score ∨
        (a.score = b.score ∧ b.cand.uploadDate ≤ a.cand.uploadDate)) ∧
    (rankResults q cands).Perm (formatResults q cands) ∧
    (∀ (sc : Nat) (t : Int),
      (rankResults q cands).filter
        (fun r => r.score == sc && r.cand.uploadDate == t) =
      (formatResults q cands).filter
        (fun r => r.score == sc && r.cand.uploadDate == t)) := by
  refine ⟨?_, sortStable_perm _ _, ?_⟩
  · have h := sortStable_pairwise rankKeep_total rankKeep_trans
      (formatResults q cands)
    exact h.imp (fun hab => (rankKeep_true_iff _ _).mp hab)
  · intro sc t
    apply sortStable_filter rankKeep_total rankKeep_trans
    · intro x y hpx hpy
      simp only [Bool.and_eq_true, beq_iff_eq] at hpx hpy
      rw [rankKeep_true_iff]
      right
      refine ⟨by omega, ?_⟩
      rw [hpx.2, hpy.2]
    · intro x y z hpx hpz hyz
      simp only [Bool.and_eq_true, beq_iff_eq] at hpx hpz
      rw [rankKeep_true_iff] at hyz ⊢
      rcases hyz with h | h
      · left; omega
      · right
        refine ⟨by omega, ?_⟩
        rw [hpx.2]
        rw [hpz.2] at h
        exact h.2

/-- Claim C5 counterexample: the code takes the top 3 frequent tokens
without excluding tokens already chosen as domain tags, so on this text the
token beta is lost and the result differs from the claimed computation. -/
theorem C5_counterexample :
    extractKeywordsAndTags
        "finance finance money money alpha alpha beta beta gamma gamma" ≠
      claimC5Tags
        "finance finance money money alpha alpha beta beta gamma gamma" := by
  decide

/-- Claim C5 amended: the supplemental tags are the top 3 frequent tokens
with count at least 2 and length 4..15, chosen without excluding the domain
tags (duplicates fall out only in the final de-duplication); the final set
is the domain tags followed by the supplemental tags, de-duplicated and
capped at 6, and when 5 domain tags are selected at most 1 entry outside
the domain tags survives. -/
theorem C5_amended_tags :
    (∀ text : String, extractKeywordsAndTags text = amendedC5Tags text) ∧
    (∀ text : String, (sortedTags (wordFreq text)).length = 5 →
      ((extractKeywordsAndTags text).filter
        (fun t => !((sortedTags (wordFreq text)).contains t))).length ≤ 1) :=
  ⟨extract_eq_amended, fun _ h => extract_cap h⟩

/-- Claim C5 amended, witness: a text selecting exactly 5 domain tags keeps
at most one supplemental entry within the cap of 6. -/
theorem C5_amended_witness :
    ((extractKeywordsAndTags "software money health school project").filter
      (fun t => !((sortedTags
        (wordFreq "software money health school project")).contains t))).length
      ≤ 1 :=
  C5_amended_tags.2 "software money health school project" (by decide)

/-- Claim C6 counterexample: a document with empty text does cause a
classification failure: the handler validation treats the empty string as a
missing field and returns a 400 error instead of an empty-tag success. -/
theorem C6_counterexample :
    autoTag (fun _ => true) ⟨[], [], 0⟩ 5 "" =
      (⟨[], [], 0⟩, TagResponse.error 400) := by
  decide

/-- Claim C6 amended: a document whose text is whitespace-only but
non-empty yields a successful empty-tag classification and leaves the
store untouched; an entirely empty text string is instead rejected by the
input validation; the upload path always inserts a ContentRecord and
substitutes the file name as indexed text when no text was extracted. -/
theorem C6_amended_empty_text (c : String → Bool) (s : TagStore) (f : Nat)
    (text ext fn : String) (hf : f ≠ 0) (ht : text ≠ "")
    (hws : ∀ ch ∈ text.data, isWsChar ch = true)
    (hwse : ∀ ch ∈ ext.data, isWsChar ch = true) :
    autoTag c s f text = (s, TagResponse.noTags) ∧ textForIndex ext fn = fn :=
  ⟨autoTag_noTags hf ht (extract_of_ws hws), textForIndex_of_ws hwse⟩

/-- Claim C6 amended, witness: a single-space text is classified as a
success with no tags, and an empty extraction substitutes the file name. -/
theorem C6_amended_witness :
    autoTag (fun _ => true) ⟨[], [], 0⟩ 1 " " = (⟨[], [], 0⟩, TagResponse.noTags)
      ∧ textForIndex "" "scan" = "scan" :=
  C6_amended_empty_text (fun _ => true) ⟨[], [], 0⟩ 1 " " "" "scan"
    (by decide) (by decide) (by decide) (by decide)

/-- Claim C7: tag names are stored lower-cased and are case-insensitively
unique: resolving a second name equal up to case to a just-resolved one
returns the same tag id, and any sequence of reconcile operations keeps
the store free of two records whose names differ only in case. -/
theorem C7_case_insensitive_tags :
    (∀ (c : String → Bool) (tags : List (Nat × String)) (nid : Nat)
      (n1 n2 : String) (id : Nat) (tags1 : List (Nat × String)) (nid1 : Nat),
      (tags.map (fun e => e.2)).Nodup → jsToLower n1 = jsToLower n2 →
      ensureTagExists c tags nid n1 = (some id, tags1, nid1) →
      ensureTagExists c tags1 nid1 n2 = (some id, tags1, nid1)) ∧
    (∀ (c : String → Bool) (s : TagStore) (ops : List (Nat × List String)),
      TagsWF s.tags → TagsWF (runAll c s ops).tags ∧
        CaseInsensitivelyUnique (runAll c s ops).tags) :=
  ⟨fun _ _ _ _ _ _ _ _ hnd hlow h => ensure_same_id hnd hlow h,
   fun _ s ops h =>
    ⟨runAll_WF ops s h, TagsWF_ciUnique (runAll_WF ops s h)⟩⟩

/-- Claim C7 witness: creating the tag Invoice and then resolving invoice
returns the same id 0, and a concrete pair of reconcile runs keeps the
store case-insensitively unique. -/
theorem C7_witness :
    ensureTagExists (fun _ => true) [(0, "invoice")] 1 "invoice" =
      (some 0, [(0, "invoice")], 1) ∧
    CaseInsensitivelyUnique
      (runAll (fun _ => true) ⟨[], [], 0⟩ [(1, ["Invoice"]), (2, ["invoice"])]).tags :=
  ⟨C7_case_insensitive_tags.1 (fun _ => true) [] 0 "Invoice" "invoice" 0
      [(0, "invoice")] 1 (by decide) (by decide) (by decide),
   (C7_case_insensitive_tags.2 (fun _ => true) ⟨[], [], 0⟩
      [(1, ["Invoice"]), (2, ["invoice"])]
      ⟨fun e h => absurd h (List.not_mem_nil e), List.nodup_nil⟩).2⟩

/-- Claim C8: a failing find-or-create for one tag name is skipped and the
loop continues with the remaining names; the handler still reports success
and the reported tag_count is the number of successfully resolved ids,
which never exceeds the number of identified names. -/
theorem C8_per_tag_failure :
    (∀ (c : String → Bool) (tags : List (Nat × String)) (nid : Nat)
      (n : String) (ns : List String),
      (ensureTagExists c tags nid n).1 = none →
      resolveTags c tags nid (n :: ns) = resolveTags c tags nid ns) ∧
    (∀ (c : String → Bool) (s : TagStore) (f : Nat) (text : String),
      f ≠ 0 → text ≠ "" → extractKeywordsAndTags text ≠ [] →
      (autoTag c s f text).2 = TagResponse.tagged (extractKeywordsAndTags text)
        ((resolveTags c s.tags s.nextId (extractKeywordsAndTags text)).1.length)) ∧
    (∀ (c : String → Bool) (tags : List (Nat × String)) (nid : Nat)
      (ns : List String),
      (resolveTags c tags nid ns).1.length ≤ ns.length) := by
  refine ⟨fun c tags nid n ns h => resolveTags_cons_none h, ?_,
    fun c tags nid ns => resolveTags_length_le ns tags nid⟩
  intro c s f text hf ht hext
  rcases hrun : resolveTags c s.tags s.nextId (extractKeywordsAndTags text) with
    ⟨ids, tags2, nid2⟩
  rw [autoTag_tagged hf ht hext hrun]

/-- Claim C8 witness: with a store refusing the name technology, that tag
is skipped, the remaining two resolve, and the handler reports success
with tag_count 2 out of 3 identified names. -/
theorem C8_witness :
    resolveTags (fun n => !(n == "technology")) [] 0 ["technology", "software"] =
      resolveTags (fun n => !(n == "technology")) [] 0 ["software"] ∧
    (autoTag (fun n => !(n == "technology")) ⟨[], [], 0⟩ 4
      "software software database database").2 =
      TagResponse.tagged
        (extractKeywordsAndTags "software software database database")
        ((resolveTags (fun n => !(n == "technology")) [] 0
          (extractKeywordsAndTags "software software database database")).1.length) :=
  ⟨C8_per_tag_failure.1 (fun n => !(n == "technology")) [] 0 "technology"
      ["software"] (by decide),
   C8_per_tag_failure.2.1 (fun n => !(n == "technology")) ⟨[], [], 0⟩ 4
      "software software database database" (by decide) (by decide) (by decide)⟩

/-- Claim C9: over a store whose tag names are distinct, running reconcile
twice in succession with the same document and the same tag-name list
gives the same final store and the same reported count as running it
once: reconcile is idempotent at the document level. -/
theorem C9_reconcile_idempotent (c : String → Bool) (s : TagStore) (f : Nat)
    (ns : List String) (h : (s.tags.map (fun e => e.2)).Nodup) :
    reconcile c (reconcile c s f ns).1 f ns = reconcile c s f ns :=
  reconcile_idem h

/-- Claim C9 witness: a concrete double reconcile of document 7 with the
list Invoice, financial reproduces the single-run store and count. -/
theorem C9_witness :
    reconcile (fun _ => true)
      (reconcile (fun _ => true) ⟨[(1, "legacy")], [(7, 1)], 2⟩ 7
        ["Invoice", "financial"]).1 7 ["Invoice", "financial"] =
    reconcile (fun _ => true) ⟨[(1, "legacy")], [(7, 1)], 2⟩ 7
      ["Invoice", "financial"] :=
  C9_reconcile_idempotent (fun _ => true) ⟨[(1, "legacy")], [(7, 1)], 2⟩ 7
    ["Invoice", "financial"] (by decide)

/-- Claim C10: every tag returned by the local classifier is lower-case and
is either one of the ten fixed domain names or a token of the normalized
input; in particular it is never a stop word, never purely numeric, and
always longer than 2 characters. -/
theorem C10_tag_provenance (text t : String)
    (h : t ∈ extractKeywordsAndTags text) :
    jsToLower t = t ∧
    (t ∈ domainKeywords.map (fun d => d.1) ∨ t ∈ wordsOf text) ∧
    stopWords.contains t = false ∧ isPureNumber t = false ∧ t.length > 2 := by
  have hall : ∀ x ∈ domainKeywords.map (fun d => d.1),
      jsToLower x = x ∧ stopWords.contains x = false ∧
        isPureNumber x = false ∧ x.length > 2 := by decide
  rcases mem_extract h with hd | hm
  · have hmem := mem_sortedTags hd
    rcases hall t hmem with ⟨h1, h2, h3, h4⟩
    exact ⟨h1, Or.inl hmem, h2, h3, h4⟩
  · have hword := wordFreq_keys (mem_meaningfulWords hm)
    rcases wordsOf_props hword with ⟨h1, h2, h3⟩
    exact ⟨wordsOf_lower hword, Or.inr hword, h2, h3, h1⟩

/-- Claim C10 witness: on a concrete text the returned tag technology is a
domain name, lower-case, not a stop word, not numeric, longer than 2. -/
theorem C10_witness :
    jsToLower "technology" = "technology" ∧
    ("technology" ∈ domainKeywords.map (fun d => d.1) ∨
      "technology" ∈ wordsOf "software software database database") ∧
    stopWords.contains "technology" = false ∧
    isPureNumber "technology" = false ∧ ("technology" : String).length > 2 :=
  C10_tag_provenance "software software database database" "technology"
    (by decide)

end Atlas
